import Mathlib

/-!
# dilithium-web: the WASM wallet core (`dilithium-wallet/wasm/main.go`)

A shallow embedding of the six functions that `main.go` exports to JavaScript, and of the
parts of its Go dependencies that decide what those functions return.

Conventions of the embedding.

* A Go `byte` is a `Fin 256`; a Go `[]byte` and a Go `string` are both `List Byte`
  (a Go string is a byte sequence: `len` and slicing count bytes).
* A Go array type `[n]byte` is `Bytes n`, a byte list that carries its length.
* A function that may panic or fail to return yields an `Option`; `none` stands for
  "the call does not return a value".
* The cryptographic primitives of the imported packages (SHA-256, HMAC, PBKDF2, the
  Dilithium mode3 arithmetic, the BIP-39 check) are not part of the repository.  They are
  the fields of `Deps`: deterministic functions whose result sizes are the sizes their Go
  types and documentation fix.  Every theorem holds for every choice of them.
* The control flow of the imported packages that the claims depend on (`encoding/hex`,
  the `hkdf` reader, `io.ReadFull`, `mode3.GenerateKey`, `PrivateKey.UnmarshalBinary`,
  the `syscall/js` accessors) is written out, following those packages.
* `main.go` has no package-level variable.  What a call can see besides its arguments is
  collected in `World`: the bytes `crypto/rand` delivers (read by `generateMnemonic` only)
  and the order in which the Go runtime ranges over a map (which fixes the order of the
  properties of a returned object).  The Go functions are modelled first (`deriveKeys`,
  `sign`, ...: what the function body returns), then their exports to JavaScript
  (`dilithiumDeriveKeys`, ...: what a caller receives in a given `World`).
* The JavaScript global `Uint8Array` is taken to be the standard constructor.
-/

namespace DilithiumWallet

/-! ## Bytes and strings -/

/-- A Go `byte`. -/
abbrev Byte := Fin 256

/-- A Go `string`: an immutable byte sequence. -/
abbrev GoString := List Byte

/-- A Go array `[n]byte`, and more generally a byte slice whose length is fixed by its type
or documentation. -/
structure Bytes (n : Nat) where
  data : List Byte
  size_eq : data.length = n

/-- The Go string literal with the given ASCII text. -/
def ascii (s : String) : GoString :=
  s.toList.map (fun c => ⟨c.toNat % 256, Nat.mod_lt _ (by decide)⟩)

/-- Go slice expression `s[:n]`: panics (here `none`) when `n` exceeds the length. -/
def sliceTo (s : List Byte) (n : Nat) : Option (List Byte) :=
  if n ≤ s.length then some (s.take n) else none

/-- Go builtin `make([]byte, n)`: `n` zero bytes; panics on a negative length. -/
def makeBytes (n : Int) : Option (List Byte) :=
  if 0 ≤ n then some (List.replicate n.toNat 0) else none

/-- Go builtin `copy(dst, src)`: overwrites the first `min (len dst) (len src)` bytes of
`dst`; returns the new contents of `dst` and the number of bytes copied. -/
def copyBytes (dst src : List Byte) : List Byte × Nat :=
  (src.take dst.length ++ dst.drop src.length, min dst.length src.length)

/-! ## `encoding/hex` -/

/-- `hex.hextable`. -/
def hextable : GoString := ascii "0123456789abcdef"

/-- The two characters `hextable[v>>4]`, `hextable[v&0x0f]` that `hex.Encode` writes
for the byte `v`. -/
def encodeByte (v : Byte) : List Byte :=
  [hextable.get ⟨v.val / 16, (by decide : 16 = hextable.length) ▸ (by omega : v.val / 16 < 16)⟩,
   hextable.get ⟨v.val % 16, (by decide : 16 = hextable.length) ▸ (by omega : v.val % 16 < 16)⟩]

/-- `hex.EncodeToString`: the loop of `hex.Encode` over `src`, two characters per byte. -/
def EncodeToString : List Byte → GoString
  | [] => []
  | v :: rest => encodeByte v ++ EncodeToString rest

/-- `hex.reverseHexTable`: the value of a hexadecimal digit (either case), `0xff` for any
other byte. -/
def reverseHexTable (c : Byte) : Nat :=
  if 48 ≤ c.val ∧ c.val ≤ 57 then c.val - 48
  else if 97 ≤ c.val ∧ c.val ≤ 102 then c.val - 87
  else if 65 ≤ c.val ∧ c.val ≤ 70 then c.val - 55
  else 255

/-- `hex.DecodeString`, the decoder a receiver of `signatureHex` applies (`main.go` itself
never decodes): pairs of digits become bytes; an invalid digit or an odd length is an
error (`none`). -/
def DecodeString : GoString → Option (List Byte)
  | [] => some []
  | [_] => none
  | p :: q :: rest =>
    if reverseHexTable p > 15 then none
    else if reverseHexTable q > 15 then none
    else
      match DecodeString rest with
      | none => none
      | some bs =>
        some (⟨(reverseHexTable p * 16 + reverseHexTable q) % 256, Nat.mod_lt _ (by decide)⟩ :: bs)

/-! ## `syscall/js` values -/

/-- A `js.Value` as the Go code sees it.

* `text s`: a JavaScript string; `s` is the Go string that `Value.String` returns for it.
* `typedArray contents length`: a `Uint8Array` or `Uint8ClampedArray` (or an instance of a
  subclass) holding `contents`.  `length` is what `Get("length").Int()` returns for it:
  the number of its bytes for a plain array, whatever its `length` property gives for a
  subclass that overrides the property, `none` when reading it panics (the property is not
  a number).
* `bigint`: a JavaScript BigInt.  `Value.Type` panics on it (`bad type flag`), and with it
  `Value.String` and `Value.Get`.
* `other rendering length`: any other value.  `rendering` is what `Value.String` returns
  for it (`<undefined>`, `<number: 3>`, `<object>`, ...); `length` is the result of
  `Get("length").Int()` when that call does not panic (an object with a numeric `length`
  property), `none` when it does (`Get` panics on a non-object, `Int` on a non-number). -/
inductive Value where
  | text (s : GoString)
  | typedArray (contents : List Byte) (length : Option Int)
  | bigint
  | other (rendering : GoString) (length : Option Int)
  deriving DecidableEq

namespace Value

/-- A plain `Uint8Array` with contents `b`: its `length` is the number of its bytes. -/
@[reducible] def bytes (b : List Byte) : Value :=
  typedArray b (some (b.length : Int))

/-- `Value.String`: the text of a string, the type rendering of another value; panics
(`none`) on a BigInt, whose type `Value.Type` does not know. -/
def String : Value → Option GoString
  | text s => some s
  | typedArray _ _ => some (ascii "<object>")
  | bigint => none
  | other rendering _ => some rendering

/-- `v.Get("length").Int()`: panics unless `v` is an object whose `length` is a number. -/
def lengthInt : Value → Option Int
  | text _ => none
  | typedArray _ length => length
  | bigint => none
  | other _ length => length

end Value

/-- `js.CopyBytesToGo(dst, src)`: panics unless `src` is a `Uint8Array` or
`Uint8ClampedArray`; otherwise the bytes `src` holds are copied with `copy` semantics,
whatever its `length` property says.  The result is the new contents of `dst`; the
returned count is discarded at every call in `main.go` and is left out. -/
def CopyBytesToGo (dst : List Byte) (src : Value) : Option (List Byte) :=
  match src with
  | Value.typedArray contents _ => some (copyBytes dst contents).1
  | _ => none

/-- `js.CopyBytesToJS(dst, src)`: panics unless `dst` is a `Uint8Array` or
`Uint8ClampedArray`.  `main.go` passes only arrays it has just created, whose `length` is
the number of their bytes; for those the contents are overwritten with `copy` semantics.
For an array whose `length` property is anything else the model gives no value.  The
result is the array after the copy; the returned count is discarded at every call in
`main.go` and is left out. -/
def CopyBytesToJS (dst : Value) (src : List Byte) : Option Value :=
  match dst with
  | Value.typedArray d length =>
    if length = some (d.length : Int) then some (Value.typedArray (copyBytes d src).1 length)
    else none
  | _ => none

/-- `js.Global().Get("Uint8Array").New(n)`: a fresh zero-filled `Uint8Array` of `n` bytes. -/
def newUint8Array (n : Nat) : Value :=
  Value.bytes (List.replicate n 0)

/-- A Go `map[string]any` literal as built by `main.go`, its fields listed in the order
written (a Go map itself has no order), and also the properties of a JavaScript object in
the order they were set (see `ValueOf`).  A Go string stored in the map is held as
`Value.text` (what `js.ValueOf` makes of it when the map crosses to JavaScript). -/
abbrev Fields := List (String × Value)

/-- The field names of a result. -/
def Fields.keys (r : Fields) : List String := r.map Prod.fst

/-! ## The imported primitives -/

/-- The primitives of the imported packages, as functions of their byte inputs: each is a
Go function (or a method on a value built in the same call) that takes no random source,
clock or package state; `mode3.GenerateKey`, which does take a random source, is written
out below and draws from the reader it is given.  Sizes that the packages fix by a Go
array type or by a documented constant are part of the types. -/
structure Deps where
  /-- `sha256.Sum256`, of type `func([]byte) [32]byte`. -/
  Sum256 : List Byte → Bytes 32
  /-- HMAC-SHA256 with the given key over the given message: `hmac.New(sha256.New, key)`,
  `Write(msg)`, `Sum(nil)`; 32 bytes, the `Size()` of SHA-256. -/
  hmacSha256 : List Byte → List Byte → Bytes 32
  /-- `pbkdf2.Key(password, salt, iter, keyLen, sha512.New)`; returns `keyLen` bytes. -/
  pbkdf2Sha512 : List Byte → List Byte → Nat → (keyLen : Nat) → Bytes keyLen
  /-- `bip39.IsMnemonicValid`. -/
  IsMnemonicValid : GoString → Bool
  /-- `bip39.NewMnemonic`: the mnemonic of the given entropy, or the text of its error. -/
  NewMnemonic : List Byte → Except GoString GoString
  /-- `mode3.SeedSize`. -/
  SeedSize : Nat
  /-- `mode3.PublicKeySize`. -/
  PublicKeySize : Nat
  /-- `mode3.PrivateKeySize`. -/
  PrivateKeySize : Nat
  /-- `mode3.SignatureSize`. -/
  SignatureSize : Nat
  /-- `mode3.PublicKey`. -/
  PublicKey : Type
  /-- `mode3.PrivateKey`. -/
  PrivateKey : Type
  /-- `mode3.NewKeyFromSeed`, of type `func(*[SeedSize]byte) (*PublicKey, *PrivateKey)`. -/
  NewKeyFromSeed : Bytes SeedSize → PublicKey × PrivateKey
  /-- `PublicKey.Pack`, filling a `[PublicKeySize]byte`. -/
  packPublic : PublicKey → Bytes PublicKeySize
  /-- `PrivateKey.Pack`, filling a `[PrivateKeySize]byte`. -/
  packPrivate : PrivateKey → Bytes PrivateKeySize
  /-- `PrivateKey.Unpack`, reading a `[PrivateKeySize]byte`. -/
  unpackPrivate : Bytes PrivateKeySize → PrivateKey
  /-- The text of the error that `PrivateKey.UnmarshalBinary` returns. -/
  unmarshalErrorText : GoString
  /-- What `mode3.SignTo(sk, msg, sig)` leaves in the first `SignatureSize` bytes of `sig`. -/
  SignTo : PrivateKey → List Byte → Bytes SignatureSize

/-! ## `golang.org/x/crypto/hkdf` and `io.ReadFull` -/

/-- The `error` values that can reach `main.go` from a read of the key stream. -/
inductive ReadError where
  /-- `errors.New("hkdf: entropy limit reached")`. -/
  | entropyLimit
  /-- `io.EOF`. -/
  | eof
  /-- `io.ErrUnexpectedEOF`. -/
  | unexpectedEOF
  deriving DecidableEq

/-- `err.Error()`. -/
def ReadError.Error : ReadError → GoString
  | entropyLimit => ascii "hkdf: entropy limit reached"
  | eof => ascii "EOF"
  | unexpectedEOF => ascii "unexpected EOF"

/-- The reader state `hkdf.hkdf`.  `expander` is the HMAC keyed with the pseudorandom key,
as the function from the bytes written to it (after `Reset`) to its `Sum`; `counter` is a
Go `byte`, kept below 256 by explicit reduction. -/
structure hkdf where
  expander : List Byte → Bytes 32
  size : Nat
  info : List Byte
  counter : Nat
  prev : List Byte
  buf : List Byte

/-- `hkdf.Extract(sha256.New, secret, salt)`: a nil salt (`none`) is replaced by
`hash().Size()` zero bytes; the result is HMAC keyed by the salt over the secret. -/
def Extract (D : Deps) (secret : List Byte) (salt : Option (List Byte)) : List Byte :=
  let salt := match salt with
    | none => List.replicate 32 0
    | some s => s
  (D.hmacSha256 salt secret).data

/-- `hkdf.Expand(sha256.New, pseudorandomKey, info)`:
`&hkdf{expander, expander.Size(), info, 1, nil, nil}`. -/
def Expand (D : Deps) (pseudorandomKey info : List Byte) : hkdf :=
  { expander := D.hmacSha256 pseudorandomKey, size := 32, info := info, counter := 1,
    prev := [], buf := [] }

/-- `hkdf.New(sha256.New, secret, salt, info)`. -/
def New (D : Deps) (secret : List Byte) (salt : Option (List Byte)) (info : List Byte) : hkdf :=
  Expand D (Extract D secret salt) info

/-- The loop `for len(p) > 0` of `hkdf.Read`.  `need` is `len(p)`, `n` the count of
the last `copy`, `out` the bytes written to the caller's buffer so far.  Each round sets
`prev` to the HMAC of `prev ++ info ++ [counter]`, increments the byte `counter`, makes
`buf` the new block and copies `min need (len buf)` bytes of it. -/
def hkdf.fill (f : hkdf) (need n : Nat) (out : List Byte) : hkdf × Nat × List Byte :=
  if h : 0 < need then
    let block := f.expander (f.prev ++ f.info ++ [⟨f.counter % 256, Nat.mod_lt _ (by decide)⟩])
    let f1 : hkdf := { f with prev := block.data, counter := (f.counter + 1) % 256, buf := block.data }
    let n1 := min need f1.buf.length
    hkdf.fill f1 (need - n1) n1 (out ++ f1.buf.take n1)
  else (f, n, out)
termination_by need
decreasing_by
  have hb : block.data.length = 32 := block.size_eq
  simp only [hb]
  omega

/-- `(*hkdf).Read(p)` with `need = len(p)`: returns the new reader state, the bytes
written to `p` (as many as the returned count) and the returned error.  The entropy check
`remains := len(f.buf) + int(255-f.counter+1)*f.size` is done in `byte` arithmetic, as in
the library. -/
def hkdf.Read (f : hkdf) (need : Nat) : hkdf × List Byte × Option ReadError :=
  let remains := f.buf.length + ((255 - f.counter + 1) % 256) * f.size
  if remains < need then (f, [], some ReadError.entropyLimit)
  else
    let n := min need f.buf.length
    let r := hkdf.fill f (need - n) n (f.buf.take n)
    ({ r.1 with buf := r.1.buf.drop r.2.1 }, r.2.2, none)

/-- The loop `for n < min && err == nil` of `io.ReadAtLeast(r, buf, min)` with
`len(buf) = min` (the call made by `io.ReadFull`, for which the guard `len(buf) < min` of
`ReadAtLeast` never fires), on an `hkdf` reader.  `got` holds the
`n` bytes read so far.  A reader that returns `0, nil` for a non-empty buffer would keep
the Go loop spinning: `none`. -/
def readLoop (min : Nat) (r : hkdf) (got : List Byte) :
    Option (hkdf × List Byte × Option ReadError) :=
  if _hlt : got.length < min then
    match (hkdf.Read r (min - got.length)) with
    | (r1, bs, some e) => some (r1, got ++ bs, some e)
    | (r1, bs, none) =>
      if _hzero : bs.length = 0 then none
      else readLoop min r1 (got ++ bs)
  else some (r, got, none)
termination_by min - got.length
decreasing_by
  simp only [List.length_append]
  omega

/-- `io.ReadFull(r, buf)` with `len(buf) = size`: after the loop, `err` is cleared when
`n >= min` and `io.EOF` after a partial read becomes `io.ErrUnexpectedEOF`. -/
def ReadFull (r : hkdf) (size : Nat) : Option (hkdf × List Byte × Option ReadError) :=
  match readLoop size r [] with
  | none => none
  | some (r1, got, err) =>
    if size ≤ got.length then some (r1, got, none)
    else if 0 < got.length ∧ err = some ReadError.eof then some (r1, got, some ReadError.unexpectedEOF)
    else some (r1, got, err)

/-! ## `github.com/cloudflare/circl/sign/dilithium/mode3` -/

/-- A zeroed Go array `[n]byte` after `copy(array[:], src)`. -/
def arrayFrom (n : Nat) (src : List Byte) : Bytes n :=
  ⟨(copyBytes (List.replicate n 0) src).1, by
    simp only [copyBytes, List.length_append, List.length_take, List.length_drop,
      List.length_replicate]
    omega⟩

/-- `mode3.GenerateKey(rand)` for a non-nil reader: `io.ReadFull` into a zeroed
`[SeedSize]byte`; the read error is returned as is, otherwise the key pair is
`NewKeyFromSeed(&seed)`.  `none`: the read never returns. -/
def GenerateKey (D : Deps) (rand : hkdf) :
    Option (Except ReadError (D.PublicKey × D.PrivateKey)) :=
  match ReadFull rand D.SeedSize with
  | none => none
  | some (_, _, some err) => some (Except.error err)
  | some (_, got, none) =>
    some (Except.ok (D.NewKeyFromSeed (arrayFrom D.SeedSize got)))

/-- `(*PublicKey).MarshalBinary`: `Pack` into a `[PublicKeySize]byte`, returned as a slice;
the error is always nil. -/
def PublicKey.MarshalBinary (D : Deps) (pk : D.PublicKey) : List Byte :=
  (D.packPublic pk).data

/-- `(*PrivateKey).MarshalBinary`: `Pack` into a `[PrivateKeySize]byte`, returned as a
slice; the error is always nil. -/
def PrivateKey.MarshalBinary (D : Deps) (sk : D.PrivateKey) : List Byte :=
  (D.packPrivate sk).data

/-- `(*PrivateKey).UnmarshalBinary(data)`: an error unless `len(data) == PrivateKeySize`;
otherwise `data` is copied into a `[PrivateKeySize]byte` and unpacked. -/
def PrivateKey.UnmarshalBinary (D : Deps) (data : List Byte) : Except GoString D.PrivateKey :=
  if data.length ≠ D.PrivateKeySize then Except.error D.unmarshalErrorText
  else
    Except.ok (D.unpackPrivate (arrayFrom D.PrivateKeySize data))

/-! ## `main.go` -/

/-- `const hkdfSalt` (main.go:15). -/
def hkdfSalt : GoString := ascii "dilithium-v1-keypair"

/-- `validateMnemonic` (main.go:29-34).  `none`: the call panics. -/
def validateMnemonic (D : Deps) (_this : Value) (args : List Value) : Option Bool :=
  match args with
  | [] => some false
  | a :: _ =>
    -- 33: return bip39.IsMnemonicValid(args[0].String())
    match a.String with
    | none => none
    | some mnemonic => some (D.IsMnemonicValid mnemonic)

/-- `deriveKeys` (main.go:36-67).  `none`: the call panics or does not return. -/
def deriveKeys (D : Deps) (_this : Value) (args : List Value) : Option Fields :=
  match args with
  | [] => some [("error", Value.text (ascii "mnemonic required"))]
  | a :: _ =>
    -- 40: mnemonic := args[0].String()
    match a.String with
    | none => none
    | some mnemonic =>
      -- 42: seed := pbkdf2.Key([]byte(mnemonic), []byte("mnemonic"), 2048, 64, sha512.New)
      let seed := (D.pbkdf2Sha512 mnemonic (ascii "mnemonic") 2048 64).data
      -- 43: reader := hkdf.New(sha256.New, seed, []byte(hkdfSalt), nil)
      let reader := New D seed (some hkdfSalt) []
      -- 45-48: pubKey, privKey, err := mode3.GenerateKey(reader)
      match GenerateKey D reader with
      | none => none
      | some (Except.error err) => some [("error", Value.text err.Error)]
      | some (Except.ok (pubKey, privKey)) =>
        -- 50-51
        let pubBytes := PublicKey.MarshalBinary D pubKey
        let privBytes := PrivateKey.MarshalBinary D privKey
        -- 53-54: pubArray := Uint8Array.New(len(pubBytes)); js.CopyBytesToJS(pubArray, pubBytes)
        match CopyBytesToJS (newUint8Array pubBytes.length) pubBytes with
        | none => none
        | some pubArray =>
          -- 56-57
          match CopyBytesToJS (newUint8Array privBytes.length) privBytes with
          | none => none
          | some privArray =>
            -- 59: hash := sha256.Sum256(pubBytes)
            let hash := D.Sum256 pubBytes
            -- 60: address := hex.EncodeToString(hash[:])[:40]
            match sliceTo (EncodeToString hash.data) 40 with
            | none => none
            | some address =>
              -- 62-66
              some [("publicKey", pubArray), ("privateKey", privArray),
                    ("address", Value.text address)]

/-- `sign` (main.go:69-94).  `none`: the call panics. -/
def sign (D : Deps) (_this : Value) (args : List Value) : Option Fields :=
  match args with
  | privKeyJS :: messageJS :: _ =>
    -- 75: privBytes := make([]byte, privKeyJS.Get("length").Int())
    match privKeyJS.lengthInt with
    | none => none
    | some len =>
      match makeBytes len with
      | none => none
      | some buf =>
        -- 76: js.CopyBytesToGo(privBytes, privKeyJS)
        match CopyBytesToGo buf privKeyJS with
        | none => none
        | some privBytes =>
          -- 78-81: privKey.UnmarshalBinary(privBytes)
          match PrivateKey.UnmarshalBinary D privBytes with
          | Except.error err =>
            some [("error", Value.text (ascii "invalid private key: " ++ err))]
          | Except.ok privKey =>
            -- 83: message := args[1].String()
            match messageJS.String with
            | none => none
            | some message =>
              -- 84: sig := make([]byte, mode3.SignatureSize)
              match makeBytes D.SignatureSize with
              | none => none
              | some sigBuf =>
                -- 85: mode3.SignTo(&privKey, []byte(message), sig)
                let sig := (copyBytes sigBuf (D.SignTo privKey message).data).1
                -- 87-88: sigArray := Uint8Array.New(len(sig)); js.CopyBytesToJS(sigArray, sig)
                match CopyBytesToJS (newUint8Array sig.length) sig with
                | none => none
                | some sigArray =>
                  -- 90-93
                  some [("signature", sigArray),
                        ("signatureHex", Value.text (EncodeToString sig))]
  -- 70-72: len(args) < 2
  | _ => some [("error", Value.text (ascii "privateKey and message required"))]

/-- `checksumAddress` (main.go:96-104).  `none`: the call panics. -/
def checksumAddress (D : Deps) (_this : Value) (args : List Value) : Option GoString :=
  match args with
  | [] => some []
  | a :: _ =>
    -- 100: rawHex := args[0].String()
    match a.String with
    | none => none
    | some rawHex =>
      -- 101: hash := sha256.Sum256([]byte("dlt1" + rawHex))
      let hash := D.Sum256 (ascii "dlt1" ++ rawHex)
      -- 102: checksum := hex.EncodeToString(hash[:])[:4]
      match sliceTo (EncodeToString hash.data) 4 with
      | none => none
      -- 103: return "dlt1" + rawHex + checksum
      | some checksum => some (ascii "dlt1" ++ rawHex ++ checksum)

/-- `publicKeyHex` (main.go:106-114).  `none`: the call panics. -/
def publicKeyHex (_this : Value) (args : List Value) : Option GoString :=
  match args with
  | [] => some []
  | pubKeyJS :: _ =>
    match pubKeyJS.lengthInt with
    | none => none
    | some len =>
      match makeBytes len with
      | none => none
      | some buf =>
        match CopyBytesToGo buf pubKeyJS with
        | none => none
        | some pubBytes => some (EncodeToString pubBytes)

/-! ## Calls from JavaScript -/

/-- The state outside the arguments that a call of an exported function runs in. -/
structure World where
  /-- What `bip39.NewEntropy(256)` returns at this call: 32 bytes read from `crypto/rand`,
  or the text of its error. -/
  entropy : Except GoString (Bytes 32)
  /-- The order in which the Go runtime's `range` visits the entries of a map at this
  call; the runtime picks it afresh for every `range`. -/
  mapOrder : Fields → Fields
  /-- A `range` visits every entry once. -/
  mapOrder_perm : ∀ r : Fields, (mapOrder r).Perm r

/-- `generateMnemonic` (main.go:17-27). -/
def generateMnemonic (D : Deps) (w : World) (_this : Value) (_args : List Value) : Option Fields :=
  -- 18-21: entropy, err := bip39.NewEntropy(256)
  match w.entropy with
  | Except.error err => some [("error", Value.text err)]
  | Except.ok entropy =>
    -- 22-25: mnemonic, err := bip39.NewMnemonic(entropy)
    match D.NewMnemonic entropy.data with
    | Except.error err => some [("error", Value.text err)]
    -- 26
    | Except.ok mnemonic => some [("mnemonic", Value.text mnemonic)]

/-- `js.ValueOf(x)` for a `map[string]any`, applied by `js.FuncOf` to the value the Go
function returns: a new object whose properties are set in a `range` over the map
(`for k, v := range x { o.Set(k, v) }`), hence in the order of that `range`. -/
def ValueOf (w : World) (x : Fields) : Fields := w.mapOrder x

/-- The export `dilithiumGenerateMnemonic` (main.go:117): the object a caller receives. -/
def dilithiumGenerateMnemonic (D : Deps) (w : World) (this : Value) (args : List Value) :
    Option Fields :=
  (generateMnemonic D w this args).map (ValueOf w)

/-- The export `dilithiumDeriveKeys` (main.go:119): the object a caller receives; `none`
when the Go function panics. -/
def dilithiumDeriveKeys (D : Deps) (w : World) (this : Value) (args : List Value) :
    Option Fields :=
  (deriveKeys D this args).map (ValueOf w)

/-- The export `dilithiumSign` (main.go:120): the object a caller receives; `none` when
the Go function panics. -/
def dilithiumSign (D : Deps) (w : World) (this : Value) (args : List Value) : Option Fields :=
  (sign D this args).map (ValueOf w)

/-- Reading the property `key` of a returned object. -/
def Fields.get : Fields → String → Option Value
  | [], _ => none
  | (k, v) :: rest, key => if k = key then some v else Fields.get rest key

/-- A world whose `range` visits a map in the order written. -/
def World.inOrder (entropy : Except GoString (Bytes 32)) : World :=
  { entropy := entropy, mapOrder := fun r => r, mapOrder_perm := fun r => List.Perm.refl r }

/-- A world whose `range` visits a map in the reverse of the order written. -/
def World.reversed (entropy : Except GoString (Bytes 32)) : World :=
  { entropy := entropy, mapOrder := List.reverse, mapOrder_perm := List.reverse_perm }

/-! ## Derived notions used to state the results -/

/-- The bytes that a first read of `n` bytes takes from the stream. -/
def firstRead (f : hkdf) (n : Nat) : List Byte := (hkdf.Read f n).2.1

/-- The stream made by `hkdf.New` from a seed and the salt `hkdfSalt`, with no info. -/
def seedStream (D : Deps) (seed : List Byte) : hkdf :=
  New D seed (some hkdfSalt) []

/-- The reader that `deriveKeys` builds (main.go:42-43) for the Go string `mnemonic`. -/
def keyStream (D : Deps) (mnemonic : GoString) : hkdf :=
  New D (D.pbkdf2Sha512 mnemonic (ascii "mnemonic") 2048 64).data (some hkdfSalt) []

/-- The key pair that `deriveKeys` computes from the Go string `mnemonic` when the seed
read succeeds: PBKDF2, HKDF, the first `SeedSize` bytes of the stream, `NewKeyFromSeed`. -/
def keyPairOf (D : Deps) (mnemonic : GoString) : D.PublicKey × D.PrivateKey :=
  D.NewKeyFromSeed (arrayFrom D.SeedSize (firstRead (keyStream D mnemonic) D.SeedSize))

/-- The success result of `deriveKeys` for the Go string `mnemonic`. -/
def derived (D : Deps) (mnemonic : GoString) : Fields :=
  [("publicKey", Value.bytes (D.packPublic (keyPairOf D mnemonic).1).data),
   ("privateKey", Value.bytes (D.packPrivate (keyPairOf D mnemonic).2).data),
   ("address", Value.text
      (EncodeToString ((D.Sum256 (D.packPublic (keyPairOf D mnemonic).1).data).data.take 20)))]

/-- The checksum characters of a raw address text: the hex text of the first two digest
bytes of the prefixed text. -/
def checksumOf (D : Deps) (r : GoString) : GoString :=
  EncodeToString ((D.Sum256 (ascii "dlt1" ++ r)).data.take 2)

/-! ## Result shapes, in the words of the specification -/

/-- A failure result: exactly one field, `error`, holding a message. -/
def IsFailure (r : Fields) : Prop :=
  ∃ msg : GoString, r = [("error", Value.text msg)]

/-- A complete `deriveKeys` success: exactly `publicKey`, `privateKey` and `address`. -/
def IsKeyResult (r : Fields) : Prop :=
  ∃ (pub priv : List Byte) (address : GoString),
    r = [("publicKey", Value.bytes pub), ("privateKey", Value.bytes priv),
         ("address", Value.text address)]

/-- A complete `sign` success: exactly `signature` and `signatureHex`. -/
def IsSignatureResult (r : Fields) : Prop :=
  ∃ (sig : List Byte) (sigHex : GoString),
    r = [("signature", Value.bytes sig), ("signatureHex", Value.text sigHex)]

/-! ## A concrete choice of the primitives

Used to evaluate the definitions on explicit inputs.  The sizes are those of circl's
Dilithium mode3; every hash and key primitive returns zero bytes, no text is a valid
mnemonic and the mnemonic of an entropy is its hex text. -/

/-- The array `[n]byte` of zeros. -/
def zeros (n : Nat) : Bytes n := ⟨List.replicate n 0, List.length_replicate n 0⟩

/-- Primitives with the mode3 sizes and all-zero hash and key outputs. -/
def zeroDeps : Deps where
  Sum256 := fun _ => zeros 32
  hmacSha256 := fun _ _ => zeros 32
  pbkdf2Sha512 := fun _ _ _ keyLen => zeros keyLen
  IsMnemonicValid := fun _ => false
  NewMnemonic := fun entropy => Except.ok (EncodeToString entropy)
  SeedSize := 32
  PublicKeySize := 1952
  PrivateKeySize := 4000
  SignatureSize := 3293
  PublicKey := Unit
  PrivateKey := Unit
  NewKeyFromSeed := fun _ => ((), ())
  packPublic := fun _ => zeros 1952
  packPrivate := fun _ => zeros 4000
  unpackPrivate := fun _ => ()
  unmarshalErrorText := ascii "packed private key must be of mode3.PrivateKeySize bytes"
  SignTo := fun _ _ => zeros 3293

/-! ## Lemmas on `encoding/hex` -/

theorem hextable_length : hextable.length = 16 := by decide

theorem encodeByte_length (v : Byte) : (encodeByte v).length = 2 := rfl

theorem EncodeToString_length (src : List Byte) :
    (EncodeToString src).length = 2 * src.length := by
  induction src with
  | nil => rfl
  | cons v rest ih =>
    simp only [EncodeToString, List.length_append, encodeByte_length, ih, List.length_cons]
    omega

/-- Cutting the hex text after `2 * k` characters is encoding the first `k` bytes. -/
theorem EncodeToString_take (k : Nat) (src : List Byte) :
    (EncodeToString src).take (2 * k) = EncodeToString (src.take k) := by
  induction k generalizing src with
  | zero => simp [EncodeToString]
  | succ k ih =>
    cases src with
    | nil => simp [EncodeToString]
    | cons v rest =>
      have h2 : 2 * (k + 1) = (encodeByte v).length + 2 * k := by
        rw [encodeByte_length]; omega
      rw [EncodeToString, h2, List.take_append, ih, List.take_succ_cons, EncodeToString]

theorem encodeByte_mem (v : Byte) : ∀ c ∈ encodeByte v, c ∈ hextable := by
  intro c hc
  simp only [encodeByte, List.mem_cons, List.mem_singleton, List.not_mem_nil, or_false] at hc
  rcases hc with h | h <;> (rw [h]; exact List.get_mem _ _ _)

theorem EncodeToString_mem (src : List Byte) : ∀ c ∈ EncodeToString src, c ∈ hextable := by
  induction src with
  | nil => intro c hc; simp [EncodeToString] at hc
  | cons v rest ih =>
    intro c hc
    rw [EncodeToString, List.mem_append] at hc
    rcases hc with h | h
    · exact encodeByte_mem v c h
    · exact ih c h

theorem reverseHexTable_hextable (i : Fin 16) :
    reverseHexTable (hextable.get ⟨i.val, by rw [hextable_length]; exact i.isLt⟩) = i.val := by
  revert i
  decide

theorem DecodeString_EncodeToString (src : List Byte) :
    DecodeString (EncodeToString src) = some src := by
  induction src with
  | nil => rfl
  | cons v rest ih =>
    have hhi : v.val / 16 < 16 := by omega
    have hlo : v.val % 16 < 16 := by omega
    have e1 := reverseHexTable_hextable ⟨v.val / 16, hhi⟩
    have e2 := reverseHexTable_hextable ⟨v.val % 16, hlo⟩
    simp only [EncodeToString, encodeByte, List.cons_append, List.nil_append, DecodeString,
      e1, e2, ih]
    have h3 : ¬ (v.val / 16 > 15) := by omega
    have h4 : ¬ (v.val % 16 > 15) := by omega
    simp only [h3, h4, if_false, List.append_eq, List.nil_append, ih]
    congr 2
    apply Fin.ext
    simp only
    omega

/-! ## Lemmas on slices and copies -/

theorem ascii_dlt1_length : (ascii "dlt1").length = 4 := by decide

theorem copyBytes_length (dst src : List Byte) : (copyBytes dst src).1.length = dst.length := by
  simp only [copyBytes, List.length_append, List.length_take, List.length_drop]
  omega

theorem copyBytes_same_length (dst src : List Byte) (h : dst.length = src.length) :
    (copyBytes dst src).1 = src := by
  simp [copyBytes, h]

theorem Value.bytes_inj (a b : List Byte) : Value.bytes a = Value.bytes b ↔ a = b := by
  constructor
  · intro h
    simp only [Value.bytes, Value.typedArray.injEq] at h
    exact h.1
  · intro h
    rw [h]

theorem CopyBytesToJS_new (src : List Byte) :
    CopyBytesToJS (newUint8Array src.length) src = some (Value.bytes src) := by
  simp [CopyBytesToJS, newUint8Array, Value.bytes, copyBytes]

theorem sliceTo_EncodeToString (k : Nat) (src : List Byte) (h : k ≤ src.length) :
    sliceTo (EncodeToString src) (2 * k) = some (EncodeToString (src.take k)) := by
  have hl : 2 * k ≤ (EncodeToString src).length := by
    rw [EncodeToString_length]; omega
  simp only [sliceTo, hl, if_true, EncodeToString_take]

theorem arrayFrom_data (n : Nat) (src : List Byte) (h : src.length = n) :
    (arrayFrom n src).data = src := by
  simp [arrayFrom, copyBytes, h]

/-! ## Lemmas on the key stream -/

/-- The block loop of `Read` delivers exactly the bytes still asked for. -/
theorem hkdf.fill_length (need : Nat) :
    ∀ (f : hkdf) (n : Nat) (out : List Byte),
      (hkdf.fill f need n out).2.2.length = out.length + need := by
  induction need using Nat.strong_induction_on with
  | _ need ih =>
    intro f n out
    rw [hkdf.fill]
    by_cases h : 0 < need
    · have hb : (f.expander
          (f.prev ++ f.info ++ [⟨f.counter % 256, Nat.mod_lt _ (by decide)⟩])).data.length = 32 :=
        Bytes.size_eq _
      simp only [h, dif_pos, hb]
      rw [ih (need - min need 32) (by omega)]
      simp only [List.length_append, List.length_take, hb]
      omega
    · simp only [h, dif_neg, not_false_eq_true]
      omega

/-- A read is refused exactly when it asks for more than what is left of the budget of 255
blocks. -/
theorem hkdf.Read_refused (f : hkdf) (need : Nat)
    (h : f.buf.length + ((255 - f.counter + 1) % 256) * f.size < need) :
    hkdf.Read f need = (f, [], some ReadError.entropyLimit) := by
  simp only [hkdf.Read, h, if_true]

theorem hkdf.Read_granted (f : hkdf) (need : Nat)
    (h : need ≤ f.buf.length + ((255 - f.counter + 1) % 256) * f.size) :
    (hkdf.Read f need).2.2 = none ∧ (hkdf.Read f need).2.1.length = need := by
  have h1 : ¬ (f.buf.length + ((255 - f.counter + 1) % 256) * f.size < need) := by omega
  simp only [hkdf.Read, h1, if_false, hkdf.fill_length, List.length_take, true_and]
  omega

/-- The budget of a reader just returned by `hkdf.New`: 255 blocks of 32 bytes. -/
theorem New_budget (D : Deps) (secret : List Byte) (salt : Option (List Byte)) (info : List Byte) :
    (New D secret salt info).buf.length
      + ((255 - (New D secret salt info).counter + 1) % 256) * (New D secret salt info).size
      = 8160 := by
  simp [New, Expand]

theorem ReadFull_granted (f : hkdf) (size : Nat)
    (h : size ≤ f.buf.length + ((255 - f.counter + 1) % 256) * f.size) :
    ∃ f1, ReadFull f size = some (f1, firstRead f size, none)
      ∧ (firstRead f size).length = size := by
  obtain ⟨he, hl⟩ := hkdf.Read_granted f size h
  have hl1 : (firstRead f size).length = size := hl
  by_cases hz : size = 0
  · subst hz
    have hnil : firstRead f 0 = [] := List.eq_nil_of_length_eq_zero hl
    refine ⟨f, ?_, hl⟩
    rw [ReadFull, readLoop]
    simp [hnil]
  · refine ⟨(hkdf.Read f size).1, ?_, hl⟩
    have hsz : 0 < size := by omega
    have hread : hkdf.Read f size
        = ((hkdf.Read f size).1, firstRead f size, none) := by
      rw [← he]; rfl
    have hne : ¬ (firstRead f size).length = 0 := by omega
    have hdone : ¬ ((firstRead f size).length < size) := by omega
    rw [ReadFull, readLoop]
    simp only [List.length_nil, hsz, dif_pos, Nat.sub_zero, List.nil_append]
    rw [hread]
    simp only [hne, dif_neg, not_false_eq_true]
    rw [readLoop]
    simp [hl1]

theorem ReadFull_refused (f : hkdf) (size : Nat)
    (h : f.buf.length + ((255 - f.counter + 1) % 256) * f.size < size) :
    ReadFull f size = some (f, [], some ReadError.entropyLimit) := by
  have hsz : 0 < size := by omega
  have h0 : ¬ (size ≤ 0) := by omega
  rw [ReadFull, readLoop]
  simp only [List.length_nil, hsz, dif_pos, Nat.sub_zero, hkdf.Read_refused f size h,
    List.append_nil]
  simp [h0]

/-- What `mode3.GenerateKey` returns on a reader just made by `hkdf.New`. -/
theorem GenerateKey_New (D : Deps) (secret : List Byte) (salt : Option (List Byte))
    (info : List Byte) :
    GenerateKey D (New D secret salt info) =
      if D.SeedSize ≤ 8160 then
        some (Except.ok (D.NewKeyFromSeed
          (arrayFrom D.SeedSize (firstRead (New D secret salt info) D.SeedSize))))
      else some (Except.error ReadError.entropyLimit) := by
  by_cases h : D.SeedSize ≤ 8160
  · obtain ⟨f1, hr, _⟩ := ReadFull_granted (New D secret salt info) D.SeedSize
      (by rw [New_budget]; exact h)
    simp only [GenerateKey, hr, h, if_true]
  · have hr := ReadFull_refused (New D secret salt info) D.SeedSize
      (by rw [New_budget]; omega)
    simp only [GenerateKey, hr, h, if_false]

/-- The whole of `deriveKeys` in closed form, for an argument that has a text. -/
theorem deriveKeys_cons (D : Deps) (this a : Value) (rest : List Value) (m : GoString)
    (hm : a.String = some m) :
    deriveKeys D this (a :: rest) =
      if D.SeedSize ≤ 8160 then some (derived D m)
      else some [("error", Value.text ReadError.entropyLimit.Error)] := by
  have h20 : 20 ≤ (D.Sum256 (D.packPublic (keyPairOf D m).1).data).data.length := by
    rw [Bytes.size_eq]; omega
  have hs := sliceTo_EncodeToString 20 _ h20
  by_cases h : D.SeedSize ≤ 8160
  · simp only [deriveKeys, hm, GenerateKey_New, h, if_true, PublicKey.MarshalBinary,
      PrivateKey.MarshalBinary, CopyBytesToJS_new]
    rw [show (40 : Nat) = 2 * 20 from rfl]
    simp only [keyPairOf, keyStream, derived] at hs ⊢
    rw [hs]
  · simp only [deriveKeys, hm, GenerateKey_New, h, if_false]

/-- On an argument without a text (a BigInt), `deriveKeys` panics at main.go:40. -/
theorem deriveKeys_no_text (D : Deps) (this a : Value) (rest : List Value)
    (hm : a.String = none) : deriveKeys D this (a :: rest) = none := by
  simp only [deriveKeys, hm]

/-- The whole of `checksumAddress` in closed form: the slice `[:4]` never panics. -/
theorem checksumAddress_cons (D : Deps) (this a : Value) (rest : List Value) (r : GoString)
    (hr : a.String = some r) :
    checksumAddress D this (a :: rest) =
      some (ascii "dlt1" ++ r ++ EncodeToString ((D.Sum256 (ascii "dlt1" ++ r)).data.take 2)) := by
  have h2 : 2 ≤ (D.Sum256 (ascii "dlt1" ++ r)).data.length := by
    rw [Bytes.size_eq]; omega
  have hs := sliceTo_EncodeToString 2 _ h2
  simp only [checksumAddress, hr]
  rw [show (4 : Nat) = 2 * 2 from rfl, hs]

theorem checksumOf_length (D : Deps) (r : GoString) : (checksumOf D r).length = 4 := by
  have h32 : (D.Sum256 (ascii "dlt1" ++ r)).data.length = 32 := Bytes.size_eq _
  simp only [checksumOf, EncodeToString_length, List.length_take, h32]
  rfl

/-! ## Lemmas on `sign` -/

theorem makeBytes_natCast (n : Nat) : makeBytes (n : Int) = some (List.replicate n 0) := by
  simp [makeBytes]

/-- Lines 74-93 of `sign` on a plain byte array: the Go slice `privBytes` gets its
contents; the message is read only after the key has decoded. -/
theorem sign_bytes (D : Deps) (this : Value) (b : List Byte) (messageJS : Value)
    (rest : List Value) :
    sign D this (Value.bytes b :: messageJS :: rest) =
      match PrivateKey.UnmarshalBinary D b with
      | Except.error err => some [("error", Value.text (ascii "invalid private key: " ++ err))]
      | Except.ok privKey =>
        match messageJS.String with
        | none => none
        | some message =>
          some [("signature", Value.bytes (D.SignTo privKey message).data),
                ("signatureHex", Value.text (EncodeToString (D.SignTo privKey message).data))] := by
  have hcopy : (copyBytes (List.replicate b.length (0 : Byte)) b).1 = b :=
    copyBytes_same_length _ _ (List.length_replicate _ _)
  simp only [sign, Value.bytes, Value.lengthInt, makeBytes_natCast, CopyBytesToGo, hcopy]
  cases hU : PrivateKey.UnmarshalBinary D b with
  | error err => rfl
  | ok privKey =>
    cases hM : messageJS.String with
    | none => rfl
    | some message =>
      have hsig : (copyBytes (List.replicate D.SignatureSize (0 : Byte))
          (D.SignTo privKey message).data).1 = (D.SignTo privKey message).data :=
        copyBytes_same_length _ _ (by rw [List.length_replicate, Bytes.size_eq])
      simp only [hsig, CopyBytesToJS_new, Value.bytes]

theorem UnmarshalBinary_ok_iff (D : Deps) (data : List Byte) :
    (∃ sk, PrivateKey.UnmarshalBinary D data = Except.ok sk) ↔ data.length = D.PrivateKeySize := by
  by_cases h : data.length = D.PrivateKeySize
  · simp [PrivateKey.UnmarshalBinary, h]
  · simp [PrivateKey.UnmarshalBinary, h]

/-! ## Lemmas on calls from JavaScript -/

/-- The block loop of `Read` advances the byte `counter` once per block of 32 bytes. -/
theorem hkdf.fill_counter (need : Nat) :
    ∀ (f : hkdf) (n : Nat) (out : List Byte), f.counter < 256 →
      (hkdf.fill f need n out).1.counter = (f.counter + (need + 31) / 32) % 256 := by
  induction need using Nat.strong_induction_on with
  | _ need ih =>
    intro f n out hc
    rw [hkdf.fill]
    by_cases h : 0 < need
    · have hb : (f.expander
          (f.prev ++ f.info ++ [⟨f.counter % 256, Nat.mod_lt _ (by decide)⟩])).data.length = 32 :=
        Bytes.size_eq _
      simp only [h, dif_pos, hb]
      rw [ih (need - min need 32) (by omega) _ _ _ (Nat.mod_lt _ (by decide))]
      simp only
      omega
    · simp only [h, dif_neg, not_false_eq_true]
      omega

/-- A read of `n` bytes, `0 < n <= 8160`, leaves a fresh reader consumed: its block
counter is no longer 1. -/
theorem hkdf.Read_consumes (D : Deps) (secret : List Byte) (salt : Option (List Byte))
    (info : List Byte) (n : Nat) (h0 : 0 < n) (h : n ≤ 8160) :
    (hkdf.Read (New D secret salt info) n).1.counter ≠ 1 := by
  have h1 : ¬ ((New D secret salt info).buf.length
      + ((255 - (New D secret salt info).counter + 1) % 256) * (New D secret salt info).size
      < n) := by
    rw [New_budget]; omega
  simp only [hkdf.Read, h1, if_false]
  rw [hkdf.fill_counter _ _ _ _ (by simp [New, Expand])]
  simp only [New, Expand, List.length_nil, Nat.min_zero, Nat.sub_zero]
  omega

/-- Reading a property does not depend on the order in which the properties were set, as
long as no name occurs twice. -/
theorem Fields.get_perm {r1 r2 : Fields} (p : r1.Perm r2) :
    r1.keys.Nodup → ∀ key : String, r1.get key = r2.get key := by
  induction p with
  | nil => intro _ _; rfl
  | cons x _ ih =>
    intro nd key
    obtain ⟨k, v⟩ := x
    simp only [Fields.keys, List.map_cons, List.nodup_cons] at nd
    simp only [Fields.get]
    rw [ih nd.2 key]
  | swap x y l =>
    intro nd key
    obtain ⟨k1, v1⟩ := x
    obtain ⟨k2, v2⟩ := y
    simp only [Fields.keys, List.map_cons, List.nodup_cons, List.mem_cons, not_or] at nd
    simp only [Fields.get]
    by_cases h1 : k1 = key
    · by_cases h2 : k2 = key
      · exact absurd (h2.trans h1.symm) nd.1.1
      · simp [h1, h2]
    · by_cases h2 : k2 = key
      · simp [h1, h2]
      · simp [h1, h2]
  | trans p1 _ ih1 ih2 =>
    intro nd key
    have nd2 := (List.Perm.nodup_iff (List.Perm.map Prod.fst p1)).mp nd
    rw [ih1 nd key, ih2 nd2 key]

theorem derived_keys_nodup (D : Deps) (m : GoString) : (derived D m).keys.Nodup := by
  simp [derived, Fields.keys]

/-! ## The claims -/

/-- C1. `deriveKeys` is deterministic.  Two invocations on the same mnemonic text `m`, in
any two worlds (any entropy, any map order: in particular the world the first invocation
leaves behind), with any receivers and any further arguments, both return.  The Go
function builds the same map `go` in both, computed from `m` alone: from the key pair of
the first `SeedSize` bytes of the stream `keyStream D m`, which each invocation makes anew
from its own PBKDF2 seed (block counter 1, nothing buffered), although a read consumes
the reader (its counter moves on).  The two objects received may list their properties in
different orders, yet every property reads the same in both and as in `go`: the
same `publicKey` bytes, the same `privateKey` bytes, the same `address` string. -/
theorem deriveKeys_deterministic (D : Deps) (m : GoString) (w1 w2 : World)
    (this1 this2 : Value) (rest1 rest2 : List Value) :
    ∃ go r1 r2 : Fields,
      deriveKeys D this1 (Value.text m :: rest1) = some go
      ∧ deriveKeys D this2 (Value.text m :: rest2) = some go
      ∧ go = (if D.SeedSize ≤ 8160 then
                [("publicKey", Value.bytes (D.packPublic (keyPairOf D m).1).data),
                 ("privateKey", Value.bytes (D.packPrivate (keyPairOf D m).2).data),
                 ("address", Value.text (EncodeToString
                    ((D.Sum256 (D.packPublic (keyPairOf D m).1).data).data.take 20)))]
              else [("error", Value.text (ascii "hkdf: entropy limit reached"))])
      ∧ keyPairOf D m
          = D.NewKeyFromSeed (arrayFrom D.SeedSize (firstRead (keyStream D m) D.SeedSize))
      ∧ ((keyStream D m).counter = 1 ∧ (keyStream D m).prev = [] ∧ (keyStream D m).buf = [])
      ∧ (0 < D.SeedSize → D.SeedSize ≤ 8160 →
          (hkdf.Read (keyStream D m) D.SeedSize).1.counter ≠ 1)
      ∧ dilithiumDeriveKeys D w1 this1 (Value.text m :: rest1) = some r1
      ∧ dilithiumDeriveKeys D w2 this2 (Value.text m :: rest2) = some r2
      ∧ r1.Perm r2
      ∧ (∀ key, r1.get key = r2.get key)
      ∧ (∀ key, r1.get key = go.get key) := by
  have hgo : ∀ (this : Value) (rest : List Value),
      deriveKeys D this (Value.text m :: rest)
        = some (if D.SeedSize ≤ 8160 then derived D m
                else [("error", Value.text ReadError.entropyLimit.Error)]) := by
    intro this rest
    rw [deriveKeys_cons D this (Value.text m) rest m rfl]
    by_cases h : D.SeedSize ≤ 8160
    · rw [if_pos h, if_pos h]
    · rw [if_neg h, if_neg h]
  have hnd : (if D.SeedSize ≤ 8160 then derived D m
      else [("error", Value.text ReadError.entropyLimit.Error)]).keys.Nodup := by
    by_cases h : D.SeedSize ≤ 8160
    · rw [if_pos h]; exact derived_keys_nodup D m
    · rw [if_neg h]; simp [Fields.keys]
  have p1 := w1.mapOrder_perm (if D.SeedSize ≤ 8160 then derived D m
      else [("error", Value.text ReadError.entropyLimit.Error)])
  have p2 := w2.mapOrder_perm (if D.SeedSize ≤ 8160 then derived D m
      else [("error", Value.text ReadError.entropyLimit.Error)])
  have hnd1 := (List.Perm.nodup_iff (List.Perm.map Prod.fst p1)).mpr hnd
  refine ⟨_, _, _, hgo this1 rest1, hgo this2 rest2, rfl, rfl, ⟨rfl, rfl, rfl⟩, ?_, ?_, ?_,
    p1.trans p2.symm, ?_, ?_⟩
  · intro h0 h
    exact hkdf.Read_consumes D _ _ _ _ h0 h
  · simp only [dilithiumDeriveKeys, hgo, Option.map_some', ValueOf]
  · simp only [dilithiumDeriveKeys, hgo, Option.map_some', ValueOf]
  · intro key
    exact Fields.get_perm (p1.trans p2.symm) hnd1 key
  · intro key
    exact Fields.get_perm p1 hnd1 key

/-- C2. Whenever `deriveKeys` succeeds, the returned `address` is the lowercase hex text of
the first 20 bytes of the SHA-256 digest of the returned `publicKey`; it has exactly 40
characters, each one of `0123456789abcdef`. -/
theorem deriveKeys_address (D : Deps) (this : Value) (args : List Value)
    (pub priv : List Byte) (address : GoString)
    (h : deriveKeys D this args
      = some [("publicKey", Value.bytes pub), ("privateKey", Value.bytes priv),
              ("address", Value.text address)]) :
    address = EncodeToString ((D.Sum256 pub).data.take 20)
      ∧ address.length = 40
      ∧ ∀ c ∈ address, c ∈ ascii "0123456789abcdef" := by
  have haddr : address = EncodeToString ((D.Sum256 pub).data.take 20) := by
    cases args with
    | nil => simp [deriveKeys] at h
    | cons a rest =>
      cases hm : a.String with
      | none =>
        rw [deriveKeys_no_text D this a rest hm] at h
        exact Option.noConfusion h
      | some m =>
        rw [deriveKeys_cons D this a rest m hm] at h
        by_cases hs : D.SeedSize ≤ 8160
        · rw [if_pos hs] at h
          simp only [derived, Option.some.injEq, List.cons.injEq, Prod.mk.injEq,
            Value.bytes_inj, Value.text.injEq, true_and, and_true] at h
          obtain ⟨hp, _, ha⟩ := h
          rw [← ha, hp]
        · rw [if_neg hs] at h
          simp at h
  have h32 : (D.Sum256 pub).data.length = 32 := Bytes.size_eq _
  refine ⟨haddr, ?_, ?_⟩
  · rw [haddr, EncodeToString_length, List.length_take, h32]
    rfl
  · rw [haddr]
    exact EncodeToString_mem _

/-- C3. For every argument with a text `r` (every string, in particular),
`checksumAddress` returns `"dlt1" ++ r ++ c`, where `c` is the 4-character lowercase hex
text of the first 2 bytes of the SHA-256 digest of the text `"dlt1" ++ r`; `c` is the
first 4 characters of the hex text of the whole digest. -/
theorem checksumAddress_eq (D : Deps) (this a : Value) (rest : List Value) (r : GoString)
    (hr : a.String = some r) :
    checksumAddress D this (a :: rest)
        = some (ascii "dlt1" ++ r
            ++ EncodeToString ((D.Sum256 (ascii "dlt1" ++ r)).data.take 2))
      ∧ (EncodeToString ((D.Sum256 (ascii "dlt1" ++ r)).data.take 2)).length = 4
      ∧ EncodeToString ((D.Sum256 (ascii "dlt1" ++ r)).data.take 2)
          = (EncodeToString (D.Sum256 (ascii "dlt1" ++ r)).data).take 4
      ∧ (∀ c ∈ EncodeToString ((D.Sum256 (ascii "dlt1" ++ r)).data.take 2),
          c ∈ ascii "0123456789abcdef") := by
  refine ⟨checksumAddress_cons D this a rest r hr, checksumOf_length D r, ?_, ?_⟩
  · rw [show (4 : Nat) = 2 * 2 from rfl, EncodeToString_take]
  · exact EncodeToString_mem _

/-- C4. For a raw address of exactly 40 characters, `checksumAddress` returns 48
characters: `"dlt1"`, then the raw address at positions 4..43, then 4 characters each one
of `0123456789abcdef`.  (That the 40 characters are hex digits is not needed.) -/
theorem checksumAddress_shape (D : Deps) (this : Value) (r : GoString) (rest : List Value)
    (hlen : r.length = 40) :
    ∃ out, checksumAddress D this (Value.text r :: rest) = some out
      ∧ out.length = 48
      ∧ out.take 4 = ascii "dlt1"
      ∧ (out.drop 4).take 40 = r
      ∧ (out.drop 44).length = 4
      ∧ ∀ c ∈ out.drop 44, c ∈ ascii "0123456789abcdef" := by
  refine ⟨_, checksumAddress_cons D this (Value.text r) rest r rfl, ?_, ?_, ?_, ?_⟩
  · simp only [List.length_append, ascii_dlt1_length, hlen]
    rw [← checksumOf, checksumOf_length]
  · simp only [List.append_assoc]
    exact List.take_left' ascii_dlt1_length
  · simp only [List.append_assoc]
    rw [List.drop_left' ascii_dlt1_length]
    exact List.take_left' hlen
  · have h44 : (ascii "dlt1" ++ r).length = 44 := by
      rw [List.length_append, ascii_dlt1_length, hlen]
    rw [List.drop_left' h44]
    exact ⟨checksumOf_length D r, EncodeToString_mem _⟩

/-- C10. The raw address is recovered from the output of `checksumAddress` by dropping its
first 4 and its last 4 characters; hence equal outputs come from equal raw addresses. -/
theorem checksumAddress_injective (D : Deps) (this1 this2 : Value) (r1 r2 : GoString)
    (rest1 rest2 : List Value) :
    (∃ out, checksumAddress D this1 (Value.text r1 :: rest1) = some out
        ∧ List.rdrop (out.drop 4) 4 = r1)
      ∧ (checksumAddress D this1 (Value.text r1 :: rest1)
            = checksumAddress D this2 (Value.text r2 :: rest2) → r1 = r2) := by
  have hrec : ∀ r : GoString,
      List.rdrop ((ascii "dlt1" ++ r ++ checksumOf D r).drop 4) 4 = r := by
    intro r
    rw [List.append_assoc, List.drop_left' ascii_dlt1_length, List.rdrop,
      List.length_append, checksumOf_length, Nat.add_sub_cancel, List.take_left]
  refine ⟨⟨_, checksumAddress_cons D this1 (Value.text r1) rest1 r1 rfl, hrec r1⟩, ?_⟩
  intro h
  rw [checksumAddress_cons D this1 (Value.text r1) rest1 r1 rfl,
    checksumAddress_cons D this2 (Value.text r2) rest2 r2 rfl] at h
  have h1 := congrArg (fun o => o.map (fun out => List.rdrop (out.drop 4) 4)) h
  simp only [Option.map_some', Option.some.injEq] at h1
  have e1 := hrec r1
  have e2 := hrec r2
  simp only [checksumOf] at e1 e2
  rw [e1, e2] at h1
  exact h1

/-- C5. Malformed key rejection: for a private-key byte array whose length differs from
`mode3.PrivateKeySize` and any message, `sign` returns the failure result whose only field
is `error`, with a message that begins with `"invalid private key: "`; the result has no
`signature` and no `signatureHex` field, and it is the same whatever the signing routine
`SignTo` computes (the routine plays no part in it). -/
theorem sign_rejects_wrong_length (D : Deps) (this : Value) (b : List Byte) (messageJS : Value)
    (rest : List Value) (h : b.length ≠ D.PrivateKeySize) :
    ∃ r, sign D this (Value.bytes b :: messageJS :: rest) = some r
      ∧ (∃ err, r = [("error", Value.text (ascii "invalid private key: " ++ err))])
      ∧ "signature" ∉ r.keys ∧ "signatureHex" ∉ r.keys
      ∧ ∀ signTo : D.PrivateKey → List Byte → Bytes D.SignatureSize,
          sign { D with SignTo := signTo } this (Value.bytes b :: messageJS :: rest) = some r := by
  refine ⟨[("error", Value.text (ascii "invalid private key: " ++ D.unmarshalErrorText))],
    ?_, ⟨_, rfl⟩, by simp [Fields.keys], by simp [Fields.keys], ?_⟩
  · rw [sign_bytes]
    simp only [PrivateKey.UnmarshalBinary, h, ne_eq, not_false_eq_true, if_true]
  · intro signTo
    rw [sign_bytes]
    simp only [PrivateKey.UnmarshalBinary, h, ne_eq, not_false_eq_true, if_true]

/-- C6. For a private key that decodes (`UnmarshalBinary` returns no error) and any
message that has a text (every string, in particular), `sign` returns the success result
with exactly `signature` and `signatureHex`; the signature has `mode3.SignatureSize`
bytes, `signatureHex` is the lowercase hex text of those bytes, `2 * SignatureSize`
characters long, and decodes back to the signature. -/
theorem sign_success (D : Deps) (this : Value) (b : List Byte) (messageJS : Value)
    (rest : List Value) (message : GoString)
    (h : ∃ sk, PrivateKey.UnmarshalBinary D b = Except.ok sk)
    (hm : messageJS.String = some message) :
    ∃ sig, sign D this (Value.bytes b :: messageJS :: rest)
        = some [("signature", Value.bytes sig), ("signatureHex", Value.text (EncodeToString sig))]
      ∧ sig.length = D.SignatureSize
      ∧ (EncodeToString sig).length = 2 * D.SignatureSize
      ∧ (∀ c ∈ EncodeToString sig, c ∈ ascii "0123456789abcdef")
      ∧ DecodeString (EncodeToString sig) = some sig := by
  obtain ⟨sk, hsk⟩ := h
  refine ⟨(D.SignTo sk message).data, ?_, Bytes.size_eq _, ?_,
    EncodeToString_mem _, DecodeString_EncodeToString _⟩
  · rw [sign_bytes, hsk]
    simp only [hm]
  · rw [EncodeToString_length, Bytes.size_eq]

/-- C7, as the code has it.  A read of `n` bytes from a freshly constructed stream succeeds
(no error, `n` bytes returned) exactly when `n` is at most 8160, the 255 blocks of 32
bytes that HKDF over SHA-256 can produce.  Every longer read returns no bytes and the
error whose text is `hkdf: entropy limit reached`, and leaves the reader as it was. -/
theorem keystream_read_iff (D : Deps) (seed : List Byte) (n : Nat) :
    (n ≤ 8160 →
        (hkdf.Read (seedStream D seed) n).2.2 = none
          ∧ (hkdf.Read (seedStream D seed) n).2.1.length = n)
      ∧ (8160 < n →
          hkdf.Read (seedStream D seed) n
            = (seedStream D seed, [], some ReadError.entropyLimit))
      ∧ ReadError.entropyLimit.Error = ascii "hkdf: entropy limit reached"
      ∧ (((hkdf.Read (seedStream D seed) n).2.2 = none
            ∧ (hkdf.Read (seedStream D seed) n).2.1.length = n)
          ↔ n ≤ 8160) := by
  have hgrant : n ≤ 8160 →
      (hkdf.Read (seedStream D seed) n).2.2 = none
        ∧ (hkdf.Read (seedStream D seed) n).2.1.length = n := fun h =>
    hkdf.Read_granted (seedStream D seed) n (by rw [seedStream, New_budget]; exact h)
  have hrefuse : 8160 < n →
      hkdf.Read (seedStream D seed) n
        = (seedStream D seed, [], some ReadError.entropyLimit) := fun h =>
    hkdf.Read_refused (seedStream D seed) n (by rw [seedStream, New_budget]; exact h)
  refine ⟨hgrant, hrefuse, rfl, ?_, hgrant⟩
  intro h
  by_contra hn
  rw [hrefuse (by omega)] at h
  simp at h

/-- C7 as stated fails: on a fresh stream over a 64-byte seed, a read of 8161 bytes returns
no bytes and the error `hkdf: entropy limit reached`. -/
theorem keystream_read_8161_refused :
    (hkdf.Read (seedStream zeroDeps (List.replicate 64 0)) 8161).2
      = ([], some ReadError.entropyLimit) := by
  rw [hkdf.Read_refused _ 8161 (by rw [seedStream, New_budget]; decide)]

/-- C8 at its failing inputs.  `sign` called with a string as first argument (the text
`00ff`) and the message `hello` panics in `Get("length")` (main.go:75): the Go function
returns nothing, the caller of `dilithiumSign` receives no object, so the call has
neither a failure nor a success result.  The same missing check shows on a BigInt:
`args[0].String()` panics in `deriveKeys` (main.go:40), and `args[1].String()` in `sign`
after the key has decoded (main.go:83). -/
theorem sign_text_key_no_result (D : Deps) (w : World) (this : Value) :
    sign D this [Value.text (ascii "00ff"), Value.text (ascii "hello")] = none
      ∧ dilithiumSign D w this [Value.text (ascii "00ff"), Value.text (ascii "hello")] = none
      ∧ (¬ ∃ r, sign D this [Value.text (ascii "00ff"), Value.text (ascii "hello")] = some r
            ∧ (IsFailure r ∨ IsSignatureResult r))
      ∧ deriveKeys D this [Value.bigint] = none
      ∧ sign D this [Value.bytes (List.replicate D.PrivateKeySize 0), Value.bigint] = none := by
  have h : sign D this [Value.text (ascii "00ff"), Value.text (ascii "hello")] = none := rfl
  refine ⟨h, ?_, ?_, rfl, ?_⟩
  · simp only [dilithiumSign, h, Option.map_none']
  · rintro ⟨r, hr, _⟩
    rw [h] at hr
    exact Option.noConfusion hr
  · rw [sign_bytes]
    simp [PrivateKey.UnmarshalBinary, Value.String]

/-- C9. `deriveKeys` does not validate the mnemonic.  With an argument supplied it returns a
failure exactly when the argument has a text and `mode3.GenerateKey` on the key stream of
that text returns an error; when `GenerateKey` returns a key pair the result is built from
that pair alone; the result is the same whatever `bip39.IsMnemonicValid` answers (so also
for the empty text and for text that `validateMnemonic` rejects).  The only other failure
is the missing argument, with the message `mnemonic required`. -/
theorem deriveKeys_no_validation (D : Deps) (this a : Value) (rest : List Value) :
    ((∃ r, deriveKeys D this (a :: rest) = some r ∧ IsFailure r)
        ↔ ∃ m err, a.String = some m
            ∧ GenerateKey D (keyStream D m) = some (Except.error err))
      ∧ (∀ m pk sk, a.String = some m →
          GenerateKey D (keyStream D m) = some (Except.ok (pk, sk)) →
          deriveKeys D this (a :: rest)
            = some [("publicKey", Value.bytes (D.packPublic pk).data),
                    ("privateKey", Value.bytes (D.packPrivate sk).data),
                    ("address", Value.text
                      (EncodeToString ((D.Sum256 (D.packPublic pk).data).data.take 20)))])
      ∧ (∀ valid : GoString → Bool,
          deriveKeys { D with IsMnemonicValid := valid } this (a :: rest)
            = deriveKeys D this (a :: rest))
      ∧ deriveKeys D this [] = some [("error", Value.text (ascii "mnemonic required"))] := by
  refine ⟨?_, ?_, ?_, rfl⟩
  · cases hm : a.String with
    | none =>
      rw [deriveKeys_no_text D this a rest hm]
      constructor
      · rintro ⟨r, hr, _⟩
        exact Option.noConfusion hr
      · rintro ⟨m, err, hm', _⟩
        exact Option.noConfusion hm'
    | some m =>
      rw [deriveKeys_cons D this a rest m hm]
      by_cases hs : D.SeedSize ≤ 8160
      · simp only [hs, if_true, Option.some.injEq]
        constructor
        · rintro ⟨r, hr, msg, hmsg⟩
          rw [← hr] at hmsg
          simp [derived] at hmsg
        · rintro ⟨m', err, hm', he⟩
          rw [keyStream, GenerateKey_New] at he
          simp [hs] at he
      · simp only [hs, if_false, Option.some.injEq]
        constructor
        · intro _
          refine ⟨m, ReadError.entropyLimit, rfl, ?_⟩
          rw [keyStream, GenerateKey_New]
          simp [hs]
        · intro _
          exact ⟨_, rfl, _, rfl⟩
  · intro m pk sk hm hg
    rw [keyStream, GenerateKey_New] at hg
    rw [deriveKeys_cons D this a rest m hm]
    by_cases hs : D.SeedSize ≤ 8160
    · simp only [hs, if_true, Option.some.injEq, Except.ok.injEq] at hg
      have hk : keyPairOf D m = (pk, sk) := hg
      simp only [hs, if_true, derived, hk]
    · simp [hs] at hg
  · intro valid
    cases hm : a.String with
    | none =>
      rw [deriveKeys_no_text D this a rest hm, deriveKeys_no_text _ this a rest hm]
    | some m =>
      rw [deriveKeys_cons D this a rest m hm, deriveKeys_cons _ this a rest m hm]
      rfl

/-! ## The theorems at concrete inputs -/

theorem deriveKeys_zeroDeps (m : GoString) :
    deriveKeys zeroDeps (Value.text []) [Value.text m]
      = some [("publicKey", Value.bytes (List.replicate 1952 0)),
              ("privateKey", Value.bytes (List.replicate 4000 0)),
              ("address", Value.text (List.replicate 40 48))] := by
  rw [deriveKeys_cons zeroDeps (Value.text []) (Value.text m) [] m rfl]
  rfl

/-- C2 at the mnemonic text `abandon`, with the all-zero primitives: the address is forty
characters `0`. -/
theorem deriveKeys_address_witness :
    deriveKeys zeroDeps (Value.text []) [Value.text (ascii "abandon")]
        = some [("publicKey", Value.bytes (List.replicate 1952 0)),
                ("privateKey", Value.bytes (List.replicate 4000 0)),
                ("address", Value.text (List.replicate 40 48))]
      ∧ List.replicate 40 (48 : Byte)
          = EncodeToString ((zeroDeps.Sum256 (List.replicate 1952 0)).data.take 20)
      ∧ (List.replicate 40 (48 : Byte)).length = 40
      ∧ ∀ c ∈ List.replicate 40 (48 : Byte), c ∈ ascii "0123456789abcdef" :=
  ⟨deriveKeys_zeroDeps _,
    deriveKeys_address zeroDeps (Value.text []) [Value.text (ascii "abandon")]
      (List.replicate 1952 0) (List.replicate 4000 0) (List.replicate 40 48)
      (deriveKeys_zeroDeps _)⟩

/-- C3 at the raw address text `abc`. -/
theorem checksumAddress_eq_witness :
    (Value.text (ascii "abc")).String = some (ascii "abc")
      ∧ checksumAddress zeroDeps (Value.text []) [Value.text (ascii "abc")]
          = some (ascii "dlt1" ++ ascii "abc"
              ++ EncodeToString ((zeroDeps.Sum256 (ascii "dlt1" ++ ascii "abc")).data.take 2))
      ∧ (EncodeToString
            ((zeroDeps.Sum256 (ascii "dlt1" ++ ascii "abc")).data.take 2)).length = 4
      ∧ EncodeToString ((zeroDeps.Sum256 (ascii "dlt1" ++ ascii "abc")).data.take 2)
          = (EncodeToString (zeroDeps.Sum256 (ascii "dlt1" ++ ascii "abc")).data).take 4
      ∧ (∀ c ∈ EncodeToString ((zeroDeps.Sum256 (ascii "dlt1" ++ ascii "abc")).data.take 2),
          c ∈ ascii "0123456789abcdef") :=
  ⟨rfl, checksumAddress_eq zeroDeps (Value.text []) (Value.text (ascii "abc")) []
    (ascii "abc") rfl⟩

/-- C4 at the address that `deriveKeys` returns under the all-zero primitives, forty
characters `0`. -/
theorem checksumAddress_shape_witness :
    deriveKeys zeroDeps (Value.text []) [Value.text (ascii "abandon")]
        = some [("publicKey", Value.bytes (List.replicate 1952 0)),
                ("privateKey", Value.bytes (List.replicate 4000 0)),
                ("address", Value.text (List.replicate 40 48))]
      ∧ (List.replicate 40 (48 : Byte)).length = 40
      ∧ ∃ out, checksumAddress zeroDeps (Value.text []) [Value.text (List.replicate 40 48)]
            = some out
          ∧ out.length = 48
          ∧ out.take 4 = ascii "dlt1"
          ∧ (out.drop 4).take 40 = List.replicate 40 48
          ∧ (out.drop 44).length = 4
          ∧ ∀ c ∈ out.drop 44, c ∈ ascii "0123456789abcdef" :=
  ⟨deriveKeys_zeroDeps _, List.length_replicate 40 48,
    checksumAddress_shape zeroDeps (Value.text []) (List.replicate 40 48) []
      (List.length_replicate 40 48)⟩

/-- C5 at a 3-byte private key and the message `hello`. -/
theorem sign_rejects_wrong_length_witness :
    ([1, 2, 3] : List Byte).length ≠ zeroDeps.PrivateKeySize
      ∧ ∃ r, sign zeroDeps (Value.text []) [Value.bytes [1, 2, 3], Value.text (ascii "hello")]
            = some r
          ∧ (∃ err, r = [("error", Value.text (ascii "invalid private key: " ++ err))])
          ∧ "signature" ∉ r.keys ∧ "signatureHex" ∉ r.keys
          ∧ ∀ signTo : zeroDeps.PrivateKey → List Byte → Bytes zeroDeps.SignatureSize,
              sign { zeroDeps with SignTo := signTo } (Value.text [])
                [Value.bytes [1, 2, 3], Value.text (ascii "hello")] = some r :=
  ⟨by decide,
    sign_rejects_wrong_length zeroDeps (Value.text []) [1, 2, 3] (Value.text (ascii "hello")) []
      (by decide)⟩

/-- C6 at a private key of 4000 zero bytes and the message `hello`. -/
theorem sign_success_witness :
    (∃ sk, PrivateKey.UnmarshalBinary zeroDeps (List.replicate 4000 0) = Except.ok sk)
      ∧ (Value.text (ascii "hello")).String = some (ascii "hello")
      ∧ ∃ sig, sign zeroDeps (Value.text [])
            [Value.bytes (List.replicate 4000 0), Value.text (ascii "hello")]
            = some [("signature", Value.bytes sig),
                    ("signatureHex", Value.text (EncodeToString sig))]
          ∧ sig.length = zeroDeps.SignatureSize
          ∧ (EncodeToString sig).length = 2 * zeroDeps.SignatureSize
          ∧ (∀ c ∈ EncodeToString sig, c ∈ ascii "0123456789abcdef")
          ∧ DecodeString (EncodeToString sig) = some sig :=
  ⟨(UnmarshalBinary_ok_iff zeroDeps _).2 (List.length_replicate 4000 0), rfl,
    sign_success zeroDeps (Value.text []) (List.replicate 4000 0) (Value.text (ascii "hello")) []
      (ascii "hello") ((UnmarshalBinary_ok_iff zeroDeps _).2 (List.length_replicate 4000 0)) rfl⟩

theorem GenerateKey_zeroDeps (m : GoString) :
    GenerateKey zeroDeps (keyStream zeroDeps m) = some (Except.ok ((), ())) := by
  rw [keyStream, GenerateKey_New]
  rfl

/-- C9 at the empty mnemonic text, which `validateMnemonic` rejects under the all-zero
primitives: `deriveKeys` returns a key pair and an address all the same. -/
theorem deriveKeys_no_validation_witness :
    validateMnemonic zeroDeps (Value.text []) [Value.text []] = some false
      ∧ deriveKeys zeroDeps (Value.text []) [Value.text []]
          = some [("publicKey", Value.bytes (List.replicate 1952 0)),
                  ("privateKey", Value.bytes (List.replicate 4000 0)),
                  ("address", Value.text (List.replicate 40 48))] :=
  ⟨rfl, (deriveKeys_no_validation zeroDeps (Value.text []) (Value.text []) []).2.1 [] () ()
    rfl (GenerateKey_zeroDeps [])⟩

/-! ## What the world can change -/

/-- The order of the properties of the object received from `dilithiumDeriveKeys` does
vary with the world: written order in one, reversed in another. -/
theorem dilithiumDeriveKeys_order_varies :
    dilithiumDeriveKeys zeroDeps (World.inOrder (Except.ok (zeros 32))) (Value.text [])
        [Value.text (ascii "abandon")]
      ≠ dilithiumDeriveKeys zeroDeps (World.reversed (Except.ok (zeros 32))) (Value.text [])
          [Value.text (ascii "abandon")] := by
  intro h
  simp only [dilithiumDeriveKeys, deriveKeys_zeroDeps, ValueOf, World.inOrder, World.reversed,
    Option.map_some'] at h
  have h1 := congrArg (fun o : Option Fields => o.map Fields.keys) h
  simp only [Option.map_some', Fields.keys, List.map_reverse, List.map_cons, List.map_nil] at h1
  exact absurd h1 (by decide)

/-- The export `dilithiumGenerateMnemonic` is not deterministic: it returns different
mnemonics in worlds that differ in the entropy read. -/
theorem dilithiumGenerateMnemonic_varies :
    dilithiumGenerateMnemonic zeroDeps (World.inOrder (Except.ok (zeros 32))) (Value.text []) []
      ≠ dilithiumGenerateMnemonic zeroDeps
          (World.inOrder (Except.ok ⟨List.replicate 32 1, List.length_replicate 32 1⟩))
          (Value.text []) [] := by
  decide

/-! ## Further properties -/

/-- With a seed size within the HKDF budget (mode3 reads 32 bytes), `deriveKeys` called
with an argument that has a text always returns the complete success result: the error
branch after `mode3.GenerateKey` is never taken. -/
theorem deriveKeys_succeeds (D : Deps) (this a : Value) (rest : List Value) (m : GoString)
    (hm : a.String = some m) (h : D.SeedSize ≤ 8160) :
    ∃ r, deriveKeys D this (a :: rest) = some r ∧ IsKeyResult r ∧ ¬ IsFailure r := by
  refine ⟨derived D m, ?_, ⟨_, _, _, rfl⟩, ?_⟩
  · rw [deriveKeys_cons D this a rest m hm, if_pos h]
  · rintro ⟨msg, hmsg⟩
    simp [derived] at hmsg

/-- The success of `deriveKeys` at the mode3 seed size of 32 bytes. -/
theorem deriveKeys_succeeds_witness :
    zeroDeps.SeedSize ≤ 8160
      ∧ ∃ r, deriveKeys zeroDeps (Value.text []) [Value.text (ascii "abandon")] = some r
          ∧ IsKeyResult r ∧ ¬ IsFailure r :=
  ⟨by decide,
    deriveKeys_succeeds zeroDeps (Value.text []) (Value.text (ascii "abandon")) []
      (ascii "abandon") rfl (by decide)⟩

end DilithiumWallet
